import Mathlib

/-!
# Verification of the multilingual document-QA retrieval core

A shallow embedding, in Lean 4, of the retrieval-and-indexing core of the
document question-answering repository:

* `app/embeddings.py` — text cleaning (`clean_text`), token-aware chunking
  (`smart_chunk_text`), and the content-addressed summary cache
  (`load_cached_summary` / `cache_summary` / `summarize_text`);
* `app/rag.py` — deterministic idempotent indexing (`embed_chunks`) and
  hybrid retrieval with MMR diversification and keyword fallback
  (`retrieve_relevant_chunks`, `normalize_text`);
* `app/qa.py` — deterministic source aggregation (`build_sources`).

Python floats are modelled as exact rationals (`ℚ`), Python dictionaries and
the vector-store collection as association lists in insertion order, and the
external NLP components (the NLTK sentence splitter, the tiktoken tokenizer,
the OpenAI completion call) as function parameters.  Python's stable
`list.sort` is modelled by `List.mergeSort`, which is a stable sort.

Definitions mirror the Python source; theorems follow, one per claim.
-/

/- `Rat.add` and friends are `@[irreducible]` in Batteries, which blocks the
`decide` pre-check on concrete rational arithmetic; the kernel reduces them
regardless, so restoring the default reducibility is sound and lets `decide`
evaluate concrete retrieval pipelines. -/
attribute [local semireducible] Rat.add Rat.sub Rat.mul Rat.inv

unseal List.merge List.mergeSort

/-! ## Character and string utilities shared by the embedded functions -/

/-- `\w` of Python's `re` restricted to ASCII-style word characters:
letters, digits and underscore (`[^\w\s]` is removed by `normalize_text`). -/
def isWordChar (c : Char) : Bool := c.isAlphanum || c = '_'

/-- Accumulator-based whitespace splitter: the list of maximal
whitespace-free words of a character list (used to model both
`str.split()` and, after punctuation removal, `nltk.word_tokenize`). -/
def wordsAux : List Char → List Char → List String
  | [], acc => if acc.isEmpty then [] else [String.mk acc.reverse]
  | c :: rest, acc =>
    if c.isWhitespace then
      if acc.isEmpty then wordsAux rest [] else String.mk acc.reverse :: wordsAux rest []
    else wordsAux rest (c :: acc)

/-- Python `text.split()` — split on whitespace, dropping empty pieces. -/
def pySplit (s : String) : List String := wordsAux s.toList []

/-- Python `text.strip()` — remove leading and trailing whitespace. -/
def pyStrip (s : String) : String :=
  String.mk (((s.toList.dropWhile Char.isWhitespace).reverse.dropWhile
    Char.isWhitespace).reverse)

/-- Python `' '.join(parts)`. -/
def joinSp : List String → String
  | [] => ""
  | [s] => s
  | s :: t :: rest => s ++ " " ++ joinSp (t :: rest)

/-- `app/rag.py` `normalize_text`: lowercase, strip punctuation
(`re.sub(r'[^\w\s]', '', ...)`) and tokenize.  `nltk.word_tokenize`, applied
to text from which all punctuation has been removed, is modelled as
whitespace splitting. -/
def normalize_text (text : String) : List String :=
  wordsAux ((text.toList.map Char.toLower).filter
    (fun c => isWordChar c || c.isWhitespace)) []

/-- Python `text.replace('\n', ' ')` — a single-character pattern, so a
character-wise map. -/
def replaceNl (l : List Char) : List Char :=
  l.map (fun c => if c = '\n' then ' ' else c)

/-- Python `text.replace('  ', ' ')`: one left-to-right pass replacing
non-overlapping occurrences of two spaces by one.  Note this halves runs of
spaces instead of collapsing them: a run of `n` spaces becomes `⌈n/2⌉`. -/
def collapseSp : List Char → List Char
  | [] => []
  | [c] => [c]
  | a :: b :: rest =>
    if a = ' ' ∧ b = ' ' then ' ' :: collapseSp rest
    else a :: collapseSp (b :: rest)

/-- `app/embeddings.py` `clean_text`:
`text.replace('\n', ' ').replace('  ', ' ')` followed by `.strip()`. -/
def clean_text (text : String) : String :=
  pyStrip (String.mk (collapseSp (replaceNl text.toList)))

/-- Does the character list contain two consecutive spaces? -/
def hasRun2 : List Char → Bool
  | a :: b :: rest => (a = ' ' && b = ' ') || hasRun2 (b :: rest)
  | _ => false

/-- Does the character list contain three consecutive spaces? -/
def hasRun3 : List Char → Bool
  | a :: b :: c :: rest => (a = ' ' && b = ' ' && c = ' ') || hasRun3 (b :: c :: rest)
  | _ => false

/-- Python `str.replace(pat, rep)` for a non-empty pattern: one
left-to-right pass over the text replacing non-overlapping occurrences.
The first argument is fuel, always instantiated with the text length. -/
def replaceAll (pat rep : List Char) : Nat → List Char → List Char
  | _, [] => []
  | 0, l => l
  | fuel + 1, c :: rest =>
    if pat ≠ [] && pat.isPrefixOf (c :: rest) then
      rep ++ replaceAll pat rep fuel ((c :: rest).drop pat.length)
    else
      c :: replaceAll pat rep fuel rest

/-- Python `prompt_seed.format(input=chunk)` — substitute the chunk text for
the placeholder `\x7binput\x7d` in the prompt template. -/
def formatPrompt (seed chunk : String) : String :=
  String.mk (replaceAll "\x7binput\x7d".toList chunk.toList seed.toList.length seed.toList)

/-! ## `app/rag.py`: indexing (`embed_chunks`) -/

/-- One chunk as passed to `embed_chunks`: a dictionary with `'text'` plus
metadata.  Fields the id derivation reads are kept; `Option` marks keys that
may be absent (Python `dict.get` defaults).  The remaining metadata written
by `embed_chunks` (`source`, `timestamp`, `uuid`) does not influence which
ids are stored, and the latter two come from the ambient clock and RNG, so
they are not modelled. -/
structure Chunk where
  chunk_id : Option String
  doc_name : Option String
  page : Option Int
  chunk : Option Int
  text : String
deriving DecidableEq

/-- The deterministic chunk id:
`chunk.get('chunk_id') or f"{doc_name}-{page}-{chunk}"` with defaults
`'doc'`, `0`, `0`.  Python `or` treats the empty string as missing. -/
def chunkId (c : Chunk) : String :=
  let derived := c.doc_name.getD "doc" ++ "-" ++ toString (c.page.getD 0) ++ "-" ++
    toString (c.chunk.getD 0)
  match c.chunk_id with
  | some s => if s ≠ "" then s else derived
  | none => derived

/-- The ChromaDB collection, modelled as its stored `(id, document)` records
in insertion order.  `collection.get(ids=...)` is membership among the
stored ids; `collection.add` appends the batch. -/
abbrev Store := List (String × String)

/-- The ids stored in a collection. -/
def storedIds (store : Store) : List String := store.map Prod.fst

/-- The batching loop of `embed_chunks`:
`for i in range(0, len(docs), batch_size): collection.add(...)`.
Each iteration stores one batch of `(id, document)` pairs.  The first `Nat`
is fuel, instantiated with the number of pairs; since every iteration
consumes `batch_size ≥ 1` pairs, the fuel never runs out on the Python
loop's domain (Python raises on `batch_size = 0`). -/
def addInBatches (batch_size : Nat) : Nat → Store → List (String × String) → Store
  | _, store, [] => store
  | 0, store, _ => store
  | fuel + 1, store, pairs =>
    addInBatches batch_size fuel (store ++ pairs.take batch_size) (pairs.drop batch_size)

/-- `app/rag.py` `embed_chunks`: derive deterministic ids; unless `reembed`,
drop the chunks whose id the collection already contains; if `dry_run`, stop
before writing; otherwise embed and add the remaining chunks in batches.
The embedding backend itself only produces the vectors stored alongside each
document, so the store tracks `(id, document)` records. -/
def embed_chunks (chunks : List Chunk) (reembed : Bool) (dry_run : Bool)
    (batch_size : Nat) (store : Store) : Store :=
  let ids := chunks.map chunkId
  let docs := chunks.map Chunk.text
  let pairs := ids.zip docs
  let pairs := if reembed then pairs else
    pairs.filter (fun p => decide (p.1 ∉ storedIds store))
  if dry_run then store
  else addInBatches batch_size pairs.length store pairs

/-! ## `app/rag.py`: retrieval (`retrieve_relevant_chunks`) -/

/-- One candidate returned by `collection.query`, in store return order. -/
structure Hit where
  id : String
  text : String
  distance : ℚ
deriving DecidableEq

/-- `query_words = set(normalize_text(query))`. -/
def queryWords (query : String) : Finset String := (normalize_text query).toFinset

/-- `overlap = len(query_words & chunk_words)` for one candidate text. -/
def overlapCount (qws : Finset String) (text : String) : Nat :=
  (qws ∩ (normalize_text text).toFinset).card

/-- `hit['hybrid_score'] = hit['distance'] - keyword_weight * overlap`. -/
def hybrid_score (keyword_weight : ℚ) (qws : Finset String) (h : Hit) : ℚ :=
  h.distance - keyword_weight * (overlapCount qws h.text : ℚ)

/-- The key the candidate list is sorted by: `hybrid_score` when `hybrid`
is enabled, raw `distance` otherwise (`hit['score']`). -/
def sortKey (hybrid : Bool) (keyword_weight : ℚ) (qws : Finset String) (h : Hit) : ℚ :=
  if hybrid then hybrid_score keyword_weight qws h else h.distance

/-- `hits.sort(key=...)` — Python's stable ascending sort by the score key,
modelled by the stable `List.mergeSort`. -/
def sortHits (hybrid : Bool) (keyword_weight : ℚ) (qws : Finset String)
    (hits : List Hit) : List Hit :=
  hits.mergeSort (fun a b =>
    decide (sortKey hybrid keyword_weight qws a ≤ sortKey hybrid keyword_weight qws b))

/-- Python `max` of a non-empty list of rationals (`maxList [] = 0` is never
reached from the call sites, which guard non-emptiness). -/
def maxList : List ℚ → ℚ
  | [] => 0
  | x :: rest => rest.foldl max x

/-- `max([1 - abs(cand['distance'] - sel['distance']) for sel in selected])`. -/
def maxSimToSelected (cand : Hit) (selected : List Hit) : ℚ :=
  maxList (selected.map (fun sel => 1 - |cand.distance - sel.distance|))

/-- `mmr_scores.index(max(mmr_scores))` — first index attaining the max. -/
def idxOfMax (scores : List ℚ) : Nat :=
  scores.findIdx (fun x => decide (x = maxList scores))

/-- The marginal-relevance score of one candidate against the current
selection:
`mmr_lambda * sim_to_query - (1 - mmr_lambda) * sim_to_selected`, where
`sim_to_query = 1 - cand['distance']`. -/
def mmrScore (mmr_lambda : ℚ) (selected : List Hit) (cand : Hit) : ℚ :=
  mmr_lambda * (1 - cand.distance) - (1 - mmr_lambda) * maxSimToSelected cand selected

/-- The MMR `while` loop: while fewer than `top_k` are selected and
candidates remain, add the candidate maximizing `mmrScore` (first index on
ties) and remove it from the candidates.  The first `Nat` is fuel,
instantiated with the number of candidates; each iteration removes exactly
one candidate, so the fuel never runs out. -/
def mmrLoop (mmr_lambda : ℚ) (top_k : Nat) : Nat → List Hit → List Hit → List Hit
  | 0, selected, _ => selected
  | fuel + 1, selected, candidates =>
    if selected.length < top_k ∧ candidates ≠ [] then
      let scores := candidates.map (mmrScore mmr_lambda selected)
      let idx := idxOfMax scores
      match candidates.get? idx with
      | some c => mmrLoop mmr_lambda top_k fuel (selected ++ [c]) (candidates.eraseIdx idx)
      | none => selected
    else selected

/-- The MMR re-selection of `retrieve_relevant_chunks`: seed the selection
with the best-scoring candidate (`selected.append(candidates.pop(0))`), then
run the loop. -/
def mmrSelect (mmr_lambda : ℚ) (top_k : Nat) (hits : List Hit) : List Hit :=
  match hits with
  | [] => []
  | h :: rest => mmrLoop mmr_lambda top_k rest.length [h] rest

/-- `any(w in normalize_text(h['text']) for w in query_words)` — the
candidate's text contains at least one normalized query token. -/
def kwPred (qws : Finset String) (h : Hit) : Bool :=
  decide (∃ w ∈ qws, w ∈ normalize_text h.text)

/-- `app/rag.py` `retrieve_relevant_chunks`, from the point where the
candidate pool has been fetched: score the pool, sort it by hybrid score
(or raw distance), optionally re-select via MMR, and apply the keyword
fallback when the best-ranked hit's distance exceeds `0.7`; finally truncate
to `top_k`.  The query embedding and the `collection.query` call are the
vector store's side and enter only through `pool`. -/
def retrieve_relevant_chunks (pool : List Hit) (query : String) (top_k : Nat)
    (hybrid : Bool) (keyword_weight : ℚ) (mmr : Bool) (mmr_lambda : ℚ) : List Hit :=
  let qws := queryWords query
  let hits := sortHits hybrid keyword_weight qws pool
  let hits := if mmr ∧ hits ≠ [] then mmrSelect mmr_lambda top_k hits else hits
  match hits.head? with
  | some h0 =>
    if h0.distance > mkRat 7 10 then
      let keyword_hits := hits.filter (kwPred qws)
      if keyword_hits ≠ [] then keyword_hits.take top_k else hits.take top_k
    else hits.take top_k
  | none => hits.take top_k

/-! ## `app/embeddings.py`: chunking (`smart_chunk_text`) -/

/-- The sentence-accumulation loop of `smart_chunk_text`, generic over the
token type `T` of the pluggable tokenizer.  State: the remaining sentences,
the current chunk (a list of text pieces) and the running token count.
For each non-empty stripped sentence: if adding it would push the running
count over `max_tokens`, close the current chunk (carrying the last
`overlap` tokens forward as the seed of the next chunk when `overlap > 0`),
or emit the sentence alone if the accumulator was empty; otherwise
accumulate it. -/
def chunkLoop {T : Type} (encode : String → List T) (decode : List T → String)
    (max_tokens overlap : Nat) :
    List String → List String → Nat → List String
  | [], current_chunk, _ =>
    if current_chunk.isEmpty then [] else [joinSp current_chunk]
  | s :: rest, current_chunk, current_tokens =>
    let sent := pyStrip s
    if sent = "" then chunkLoop encode decode max_tokens overlap rest current_chunk current_tokens
    else
      let sent_tokens := (encode sent).length
      if current_tokens + sent_tokens > max_tokens then
        if current_chunk.isEmpty then
          -- sentence too long on its own: force split
          sent :: chunkLoop encode decode max_tokens overlap rest [] 0
        else
          let chunk_text := joinSp current_chunk
          if overlap > 0 && chunk_text ≠ "" then
            let ts := encode chunk_text
            let overlap_text := decode (ts.drop (ts.length - overlap))
            chunk_text :: chunkLoop encode decode max_tokens overlap rest
              [overlap_text, sent] ((encode overlap_text).length + sent_tokens)
          else
            chunk_text :: chunkLoop encode decode max_tokens overlap rest [sent] sent_tokens
      else
        chunkLoop encode decode max_tokens overlap rest
          (current_chunk ++ [sent]) (current_tokens + sent_tokens)

/-- `app/embeddings.py` `smart_chunk_text`: clean the text, split it into
sentences, then greedily accumulate sentences into token-bounded chunks with
optional overlap.  The NLTK `sent_tokenize` call (with its exception
fallback to `text.split('.')`) is an external NLP component, passed as
`sentSplit`; the tiktoken encoder/decoder pair (or a caller-supplied
tokenizer) is passed as `encode`/`decode`. -/
def smart_chunk_text {T : Type} (encode : String → List T) (decode : List T → String)
    (sentSplit : String → List String) (text : String)
    (max_tokens overlap : Nat) : List String :=
  let cleaned := clean_text text
  chunkLoop encode decode max_tokens overlap (sentSplit cleaned) [] 0

/-! ## `app/embeddings.py`: summary cache and `summarize_text` -/

/-- The content address of a cached summary:
`hashlib.sha256((chunk + model + prompt_seed).encode()).hexdigest()`.
SHA-256 is modelled as an injective keying function, so the cache key is the
concatenated string itself; two triples share a cache entry exactly when
their concatenations coincide. -/
def cacheKey (chunk model prompt_seed : String) : String :=
  chunk ++ model ++ prompt_seed

/-- The on-disk cache directory, modelled as an association list from cache
key (file name) to stored summary (file contents). -/
abbrev Cache := List (String × String)

/-- `load_cached_summary`: return the stored summary for the key if the
cache file exists. -/
def load_cached_summary (cache : Cache) (chunk model prompt_seed : String) :
    Option String :=
  (cache.find? (fun e => decide (e.1 = cacheKey chunk model prompt_seed))).map Prod.snd

/-- `cache_summary`: write the summary under the key, overwriting any
existing file with that name. -/
def cache_summary (cache : Cache) (chunk summary model prompt_seed : String) : Cache :=
  if cache.any (fun e => decide (e.1 = cacheKey chunk model prompt_seed)) then
    cache.map (fun e => if e.1 = cacheKey chunk model prompt_seed then (e.1, summary) else e)
  else cache ++ [(cacheKey chunk model prompt_seed, summary)]

/-- Python truthiness of an `Optional[str]`: `None` and `''` are falsy. -/
def truthyOpt : Option String → Bool
  | some s => s ≠ ""
  | none => false

/-- The default summarization prompts by domain (`SUMMARIZATION_PROMPTS`). -/
def SUMMARIZATION_PROMPTS : List (String × String) :=
  [("medical", "You are a medical document assistant. Summarize the following text concisely and clearly for a medical professional. Focus on key findings, diagnoses, treatments, and relevant details.\n\nText:\n\x7binput\x7d\n\nSummary:"),
   ("legal", "You are a legal document assistant. Summarize the following text for a legal professional, focusing on key facts, arguments, and outcomes.\n\nText:\n\x7binput\x7d\n\nSummary:"),
   ("general", "Summarize the following text comprehensively and clearly.\n\nText:\n\x7binput\x7d\n\nSummary:")]

/-- `get_prompt`: the custom prompt if truthy, else the domain's default
prompt, else the general prompt. -/
def get_prompt (domain : String) (custom_prompt : Option String) : String :=
  match custom_prompt with
  | some p => if p ≠ "" then p else
      ((SUMMARIZATION_PROMPTS.find? (fun e => decide (e.1 = domain))).map Prod.snd).getD
        "Summarize the following text comprehensively and clearly.\n\nText:\n\x7binput\x7d\n\nSummary:"
  | none =>
      ((SUMMARIZATION_PROMPTS.find? (fun e => decide (e.1 = domain))).map Prod.snd).getD
        "Summarize the following text comprehensively and clearly.\n\nText:\n\x7binput\x7d\n\nSummary:"

/-- The body of the per-chunk loop of `summarize_text` for one chunk:
look up the cache (when enabled); on a truthy hit return the stored summary
without calling the model; otherwise format the prompt, call the model
(`call_openai_with_retries`, modelled as `computeFn`), and persist the
result (when caching).  Returns the summary, the updated cache, and how
often the compute function was invoked (0 or 1). -/
def summarizeChunkStep (computeFn : String → String) (model prompt_seed : String)
    (cache : Bool) (store : Cache) (chunk : String) : String × Cache × Nat :=
  let cached := if cache then load_cached_summary store chunk model prompt_seed else none
  if truthyOpt cached then (cached.getD "", store, 0)
  else
    let prompt := formatPrompt prompt_seed chunk
    let summary := computeFn prompt
    let store := if cache then cache_summary store chunk summary model prompt_seed else store
    (summary, store, 1)

/-- One entry of the result list of `summarize_text`:
`{chunk, tokens, summary, text}`. -/
structure SummaryResult where
  chunk : Nat
  tokens : Nat
  summary : String
  text : String
deriving DecidableEq

/-- `app/embeddings.py` `summarize_text`: chunk the text, then summarize
each chunk through the cache, collecting per-chunk metadata.  In addition to
the Python return value the model threads the cache state through and counts
the invocations of the compute function. -/
def summarize_text {T : Type} (computeFn : String → String)
    (encode : String → List T) (decode : List T → String)
    (sentSplit : String → List String) (text model domain : String)
    (custom_prompt : Option String) (chunk_max_tokens overlap : Nat)
    (cache : Bool) (store : Cache) : List SummaryResult × Cache × Nat :=
  let prompt_seed := match custom_prompt with
    | some p => if p ≠ "" then p else get_prompt domain none
    | none => get_prompt domain none
  let chunks := smart_chunk_text encode decode sentSplit text chunk_max_tokens overlap
  let init : List SummaryResult × Cache × Nat := ([], store, 0)
  (chunks.enum.foldl (fun acc ic =>
    let (results, st, n) := acc
    let (i, chunk) := ic
    let tokens := (encode chunk).length
    let (summary, st', k) := summarizeChunkStep computeFn model prompt_seed cache st chunk
    (results ++ [{ chunk := i, tokens := tokens, summary := summary, text := chunk }],
      st', n + k)) init)

/-! ## `app/qa.py`: source aggregation (`build_sources`) -/

/-- The metadata dictionary of a retrieved chunk, with the keys
`build_sources` reads; `Option` marks keys that may be absent. -/
structure QMeta where
  doc_name : Option String
  file_name : Option String
  page : Option Int
  chunk_id : Option String
  uuid : Option String
  source : Option String
deriving DecidableEq

/-- One retrieved chunk as consumed by `build_sources`. -/
structure QHit where
  metadata : QMeta
  text : String
deriving DecidableEq

/-- Python `a or b` on strings: the left value unless it is falsy. -/
def orStr (a : Option String) (b : String) : String :=
  match a with
  | some s => if s ≠ "" then s else b
  | none => b

/-- `_short_snippet`: whitespace-normalize and truncate to 160 characters,
appending an ellipsis when truncated. -/
def shortSnippet (text : String) (max_len : Nat := 160) : String :=
  if text = "" then ""
  else
    let s := joinSp (pySplit text)
    if s.length > max_len then s.take max_len ++ "…" else s

/-- A source reference: `{index, doc_name, page, chunk_ids, source, snippet}`. -/
structure SourceRef where
  doc_name : String
  page : Int
  chunk_ids : List String
  source : String
  snippet : String
  index : Nat := 0
deriving DecidableEq

/-- `meta.get("chunk_id") or meta.get("uuid")`, then `if cid:` — the first
truthy candidate id, if any. -/
def cidOf (m : QMeta) : Option String :=
  let fromUuid := match m.uuid with
    | some u => if u ≠ "" then some u else none
    | none => none
  match m.chunk_id with
  | some s => if s ≠ "" then some s else fromUuid
  | none => fromUuid

/-- The loop body of `build_sources`: resolve the group key
`(doc_name, page)`, create the group on first sight (keeping the first-seen
hit's snippet), and append the hit's contributing chunk id, if any.  The
Python `dict` keeps groups in insertion order, modelled by an association
list. -/
def addHitToGroups (groups : List ((String × Int) × SourceRef)) (hit : QHit) :
    List ((String × Int) × SourceRef) :=
  let m := hit.metadata
  let dn := orStr m.doc_name (orStr m.file_name "document")
  let pg := m.page.getD 0
  let key := (dn, pg)
  let groups1 := if groups.any (fun e => decide (e.1 = key)) then groups else
    groups ++ [(key, { doc_name := dn
                       page := pg
                       chunk_ids := []
                       source := m.source.getD (dn ++ " - Page " ++ toString pg)
                       snippet := shortSnippet hit.text })]
  match cidOf m with
  | some cid => groups1.map (fun e =>
      if e.1 = key then (e.1, { e.2 with chunk_ids := e.2.chunk_ids ++ [cid] }) else e)
  | none => groups1

/-- The sort key of `build_sources`:
`key=lambda g: (g["page"], -len(g["chunk_ids"]))`, compared
lexicographically, ascending. -/
def srcLe (a b : SourceRef) : Prop :=
  a.page < b.page ∨ (a.page = b.page ∧ -(a.chunk_ids.length : Int) ≤ -(b.chunk_ids.length : Int))

instance : DecidableRel srcLe := fun a b => by unfold srcLe; infer_instance

/-- `app/qa.py` `build_sources`: group hits by `(doc_name, page)` in
first-seen order, sort the groups by ascending page then descending group
size (Python `sorted` is stable), truncate to `max_refs`, and assign the
1-based `index` in that final order. -/
def build_sources (retrieved_chunks : List QHit) (max_refs : Nat := 5) :
    List SourceRef :=
  let groups := retrieved_chunks.foldl addHitToGroups []
  let ordered := (groups.map Prod.snd).mergeSort (fun a b => decide (srcLe a b))
  ((ordered.take max_refs).enum.map (fun p => { p.2 with index := p.1 + 1 }))

/-! ## Concrete fixtures used by witnesses and counterexamples -/

/-- A candidate whose text contains the query token `dog`. -/
def hitCat : Hit := { id := "a", text := "cat dog", distance := mkRat 9 10 }

/-- A candidate without any query token. -/
def hitFish : Hit := { id := "b", text := "fish", distance := mkRat 8 10 }

/-- A pool without any query-token match, all distances weak. -/
def hitXyz : Hit := { id := "c", text := "xyz", distance := mkRat 8 10 }

/-- Two tied candidates (equal distance) for the stability witness. -/
def hitTieA : Hit := { id := "ta", text := "u", distance := mkRat 1 2 }

/-- Second tied candidate; appears after `hitTieA` in store return order. -/
def hitTieB : Hit := { id := "tb", text := "v", distance := mkRat 1 2 }

/-- Three near-duplicate high-relevance candidates and one diverse
lower-relevance candidate, in sorted (ascending distance) order. -/
def dupPool : List Hit :=
  [⟨"d1", "", mkRat 1 10⟩, ⟨"d2", "", mkRat 1 10⟩, ⟨"d3", "", mkRat 1 10⟩,
   ⟨"dv", "", mkRat 1 2⟩]

/-- A fixed sentence splitting (standing for `nltk.sent_tokenize`) used by
the chunking counterexample. -/
def exSentSplit : String → List String := fun _ => ["a b c.", "d e f.", "g"]

/-- A sentence splitting used by the chunking witness. -/
def aSentSplit : String → List String := fun _ => ["aa", "aaa"]

/-- A trivially additive tokenizer counting occurrences of `'a'`
(one token per `'a'`), used to discharge the additivity hypothesis of the
chunk-bound theorem at a concrete instance. -/
def countAEncode (s : String) : List Char := s.toList.filter (fun c => c = 'a')

/-- Metadata of the first hit on `(docA, page 1)`. -/
def mA1 : QMeta := { doc_name := some "docA", file_name := none, page := some 1,
                     chunk_id := some "c1", uuid := none, source := some "sA" }

/-- Metadata of the second hit on `(docA, page 1)`. -/
def mA1' : QMeta := { mA1 with chunk_id := some "c2" }

/-- Metadata of the hit on `(docB, page 2)`. -/
def mB2 : QMeta := { doc_name := some "docB", file_name := none, page := some 2,
                     chunk_id := some "c3", uuid := none, source := none }

/-- The three-hit example of the aggregation-determinism property:
`[(docA, p1), (docA, p1), (docB, p2)]` with `p1 < p2`. -/
def exQHits : List QHit := [⟨mA1, "t1"⟩, ⟨mA1', "t2"⟩, ⟨mB2, "t3"⟩]

/-! ## C5: hybrid score and its monotonicity in lexical overlap -/

/-- **C5.** For every candidate, `hybrid_score` equals
`distance - keyword_weight * overlap_count`; and for a fixed distance and
positive `keyword_weight`, a strictly larger lexical overlap count gives a
strictly smaller (better) `hybrid_score`. -/
theorem hybrid_score_def_and_monotone :
    (∀ (keyword_weight : ℚ) (qws : Finset String) (h : Hit),
      hybrid_score keyword_weight qws h =
        h.distance - keyword_weight * (overlapCount qws h.text : ℚ)) ∧
    (∀ (keyword_weight : ℚ) (qws qws' : Finset String) (h h' : Hit),
      0 < keyword_weight → h'.distance = h.distance →
      overlapCount qws h.text < overlapCount qws' h'.text →
      hybrid_score keyword_weight qws' h' < hybrid_score keyword_weight qws h) := by
  refine ⟨fun _ _ _ => rfl, fun kw qws qws' h h' hkw hdist hlt => ?_⟩
  unfold hybrid_score
  rw [hdist]
  have hcast : (overlapCount qws h.text : ℚ) < (overlapCount qws' h'.text : ℚ) := by
    exact_mod_cast hlt
  have := mul_lt_mul_of_pos_left hcast hkw
  linarith

/-- Witness for C5 at a concrete instance: `hitCat` (overlap 1 with query
`dog`) scores strictly better than `hitFish` (overlap 0) at equal distance. -/
theorem hybrid_score_def_and_monotone_witness :
    hybrid_score (mkRat 2 10) (queryWords "dog") ⟨"a", "cat dog", mkRat 1 2⟩ <
      hybrid_score (mkRat 2 10) (queryWords "dog") ⟨"b", "fish", mkRat 1 2⟩ :=
  hybrid_score_def_and_monotone.2 (mkRat 2 10) (queryWords "dog") (queryWords "dog")
    ⟨"b", "fish", mkRat 1 2⟩ ⟨"a", "cat dog", mkRat 1 2⟩ (by decide) rfl (by decide)

/-! ## C2: the keyword fallback fires on weak best distance -/

/-- **C2.** Whenever the best-ranked hit's distance exceeds `0.7` and at
least one candidate's text contains a normalized query token,
`retrieve_relevant_chunks` (without MMR re-selection) returns the
keyword-filtered subset of the ranked pool truncated to `top_k`, not the
distance-sorted (or hybrid-sorted) subset. -/
theorem retrieve_keyword_fallback (pool : List Hit) (query : String) (top_k : Nat)
    (hybrid : Bool) (keyword_weight mmr_lambda : ℚ) (h0 : Hit)
    (hhead : (sortHits hybrid keyword_weight (queryWords query) pool).head? = some h0)
    (hweak : h0.distance > mkRat 7 10)
    (hkw : (sortHits hybrid keyword_weight (queryWords query) pool).filter
      (kwPred (queryWords query)) ≠ []) :
    retrieve_relevant_chunks pool query top_k hybrid keyword_weight false mmr_lambda =
      ((sortHits hybrid keyword_weight (queryWords query) pool).filter
        (kwPred (queryWords query))).take top_k := by
  unfold retrieve_relevant_chunks
  simp only [Bool.false_eq_true, false_and, if_false, hhead, if_pos hweak, if_pos hkw]

/-- Witness for C2: pool `[hitCat (0.9), hitFish (0.8)]`, query `dog` —
best sorted distance `0.8 > 0.7`, `hitCat` contains the token `dog`, and the
result is the keyword-filtered subset. -/
theorem retrieve_keyword_fallback_witness :
    retrieve_relevant_chunks [hitCat, hitFish] "dog" 1 false 0 false 0 =
      ((sortHits false 0 (queryWords "dog") [hitCat, hitFish]).filter
        (kwPred (queryWords "dog"))).take 1 :=
  retrieve_keyword_fallback [hitCat, hitFish] "dog" 1 false 0 0 hitFish
    (by decide) (by decide) (by decide)

/-! ## C10: fallback condition with no keyword match returns the ranked hits -/

/-- **C10.** When the best-ranked hit's distance exceeds `0.7` but no
candidate's text contains a query token, `retrieve_relevant_chunks` (without
MMR re-selection) returns the ranked semantic hits truncated to `top_k`; in
particular, for positive `top_k`, the result is non-empty rather than empty
or an error. -/
theorem retrieve_fallback_miss (pool : List Hit) (query : String) (top_k : Nat)
    (hybrid : Bool) (keyword_weight mmr_lambda : ℚ) (h0 : Hit)
    (hhead : (sortHits hybrid keyword_weight (queryWords query) pool).head? = some h0)
    (hweak : h0.distance > mkRat 7 10)
    (hnokw : (sortHits hybrid keyword_weight (queryWords query) pool).filter
      (kwPred (queryWords query)) = []) :
    retrieve_relevant_chunks pool query top_k hybrid keyword_weight false mmr_lambda =
      (sortHits hybrid keyword_weight (queryWords query) pool).take top_k ∧
    (0 < top_k →
      retrieve_relevant_chunks pool query top_k hybrid keyword_weight false mmr_lambda ≠ []) := by
  have hmain :
      retrieve_relevant_chunks pool query top_k hybrid keyword_weight false mmr_lambda =
        (sortHits hybrid keyword_weight (queryWords query) pool).take top_k := by
    unfold retrieve_relevant_chunks
    simp only [Bool.false_eq_true, false_and, if_false, hhead, if_pos hweak, hnokw,
      ne_eq, not_true_eq_false, if_false]
  refine ⟨hmain, fun htk => ?_⟩
  rw [hmain]
  have hne : sortHits hybrid keyword_weight (queryWords query) pool ≠ [] := by
    intro hcontra
    rw [hcontra] at hhead
    simp at hhead
  simp only [ne_eq, List.take_eq_nil_iff]
  push_neg
  exact ⟨by omega, hne⟩

/-- Witness for C10: a weak-distance pool (`0.8 > 0.7`) whose only candidate
contains no query token; the ranked hits are returned and the result is
non-empty. -/
theorem retrieve_fallback_miss_witness :
    retrieve_relevant_chunks [hitXyz] "dog" 1 false 0 false 0 =
      (sortHits false 0 (queryWords "dog") [hitXyz]).take 1 ∧
    retrieve_relevant_chunks [hitXyz] "dog" 1 false 0 false 0 ≠ [] := by
  have h := retrieve_fallback_miss [hitXyz] "dog" 1 false 0 0 hitXyz
    (by decide) (by decide) (by decide)
  exact ⟨h.1, h.2 (by decide)⟩

/-! ## C1: indexing is idempotent -/

/-- `addInBatches` with its canonical fuel appends all pairs (for a
positive batch size, the Python loop's domain). -/
theorem addInBatches_eq_append (batch_size : Nat) (hbs : batch_size ≠ 0) :
    ∀ (fuel : Nat) (store : Store) (pairs : List (String × String)),
      pairs.length ≤ fuel → addInBatches batch_size fuel store pairs = store ++ pairs := by
  intro fuel
  induction fuel with
  | zero =>
    intro store pairs hlen
    have : pairs = [] := List.length_eq_zero.mp (Nat.le_zero.mp hlen)
    subst this
    simp [addInBatches]
  | succ fuel ih =>
    intro store pairs hlen
    match pairs with
    | [] => simp [addInBatches]
    | p :: ps =>
      rw [addInBatches]
      · have hdrop : ((p :: ps).drop batch_size).length ≤ fuel := by
          rw [List.length_drop]
          have : 1 ≤ batch_size := Nat.one_le_iff_ne_zero.mpr hbs
          simp only [List.length_cons] at hlen ⊢
          omega
        rw [ih _ _ hdrop, List.append_assoc, List.take_append_drop]
      · simp

/-- `addInBatches` with batch size `0` never stores anything (the model's
rendering of the loop Python would reject). -/
theorem addInBatches_zero (fuel : Nat) (store : Store)
    (pairs : List (String × String)) : addInBatches 0 fuel store pairs = store := by
  induction fuel generalizing store pairs with
  | zero => cases pairs <;> simp [addInBatches]
  | succ fuel ih =>
    cases pairs with
    | nil => simp [addInBatches]
    | cons p ps =>
      rw [addInBatches]
      · simpa using ih store (p :: ps)
      · simp

/-- Running `embed_chunks` (without `reembed`, not a dry run) a second time
on the same chunks leaves the store unchanged. -/
theorem embed_chunks_twice (chunks : List Chunk) (store : Store) (batch_size : Nat) :
    embed_chunks chunks false false batch_size
      (embed_chunks chunks false false batch_size store) =
      embed_chunks chunks false false batch_size store := by
  by_cases hbs : batch_size = 0
  · subst hbs
    unfold embed_chunks
    simp only [if_neg (Bool.false_ne_true), if_false, Bool.false_eq_true]
    simp only [addInBatches_zero]
  · unfold embed_chunks
    simp only [Bool.false_eq_true, if_false]
    set ids := chunks.map chunkId with hids
    set docs := chunks.map Chunk.text with hdocs
    set pairs1 := (ids.zip docs).filter (fun p => decide (p.1 ∉ storedIds store)) with hpairs1
    rw [addInBatches_eq_append batch_size hbs pairs1.length store pairs1 le_rfl]
    have hall : ∀ p ∈ ids.zip docs, p.1 ∈ storedIds (store ++ pairs1) := by
      intro p hp
      unfold storedIds
      rw [List.map_append, List.mem_append]
      by_cases hmem : p.1 ∈ storedIds store
      · exact Or.inl hmem
      · right
        have hpin : p ∈ pairs1 := by
          rw [hpairs1, List.mem_filter]
          exact ⟨hp, by simpa using hmem⟩
        exact List.mem_map.mpr ⟨p, hpin, rfl⟩
    have hempty : (ids.zip docs).filter
        (fun p => decide (p.1 ∉ storedIds (store ++ pairs1))) = [] := by
      rw [List.filter_eq_nil_iff]
      intro p hp
      simp only [decide_eq_true_eq, Decidable.not_not]
      exact hall p hp
    rw [hempty]
    rw [addInBatches_eq_append batch_size hbs _ _ [] (by simp)]
    simp

/-- **C1.** Indexing is idempotent: for every chunk list and collection
state, a second `embed_chunks` run with `reembed = False` on the same chunks
adds no vectors — the stored chunk-id set is unchanged and the stored record
count does not increase. -/
theorem embed_chunks_idempotent (chunks : List Chunk) (store : Store)
    (batch_size : Nat) :
    (storedIds (embed_chunks chunks false false batch_size
        (embed_chunks chunks false false batch_size store))).toFinset =
      (storedIds (embed_chunks chunks false false batch_size store)).toFinset ∧
    (embed_chunks chunks false false batch_size
        (embed_chunks chunks false false batch_size store)).length ≤
      (embed_chunks chunks false false batch_size store).length := by
  rw [embed_chunks_twice]
  exact ⟨rfl, le_rfl⟩

/-! ## C8: retrieval ranking is deterministic with a stable tie-break -/

/-- The Boolean comparison used by `sortHits` is transitive. -/
theorem sortKeyLe_trans (hybrid : Bool) (keyword_weight : ℚ) (qws : Finset String) :
    ∀ a b c : Hit,
      decide (sortKey hybrid keyword_weight qws a ≤ sortKey hybrid keyword_weight qws b) →
      decide (sortKey hybrid keyword_weight qws b ≤ sortKey hybrid keyword_weight qws c) →
      decide (sortKey hybrid keyword_weight qws a ≤ sortKey hybrid keyword_weight qws c) := by
  intro a b c hab hbc
  simp only [decide_eq_true_eq] at *
  exact le_trans hab hbc

/-- The Boolean comparison used by `sortHits` is total. -/
theorem sortKeyLe_total (hybrid : Bool) (keyword_weight : ℚ) (qws : Finset String) :
    ∀ a b : Hit,
      (decide (sortKey hybrid keyword_weight qws a ≤ sortKey hybrid keyword_weight qws b) ||
       decide (sortKey hybrid keyword_weight qws b ≤ sortKey hybrid keyword_weight qws a)) := by
  intro a b
  simp only [Bool.or_eq_true, decide_eq_true_eq]
  exact le_total _ _

/-- **C8.** For a fixed candidate pool (store return order) and fixed query,
retrieval is deterministic: two runs on identical inputs coincide; the
ranking `sortHits` is a permutation of the pool, sorted by the score key
(`hybrid_score` when hybrid, distance otherwise), and candidates with equal
sort keys keep their original store return order (stable tie-break). -/
theorem retrieval_ranking_deterministic (pool : List Hit) (query : String)
    (top_k : Nat) (hybrid : Bool) (keyword_weight : ℚ) (mmr : Bool) (mmr_lambda : ℚ) :
    retrieve_relevant_chunks pool query top_k hybrid keyword_weight mmr mmr_lambda =
      retrieve_relevant_chunks pool query top_k hybrid keyword_weight mmr mmr_lambda ∧
    List.Perm (sortHits hybrid keyword_weight (queryWords query) pool) pool ∧
    List.Pairwise
      (fun a b => sortKey hybrid keyword_weight (queryWords query) a ≤
        sortKey hybrid keyword_weight (queryWords query) b)
      (sortHits hybrid keyword_weight (queryWords query) pool) ∧
    (∀ a b : Hit, List.Sublist [a, b] pool →
      sortKey hybrid keyword_weight (queryWords query) a =
        sortKey hybrid keyword_weight (queryWords query) b →
      List.Sublist [a, b] (sortHits hybrid keyword_weight (queryWords query) pool)) := by
  refine ⟨rfl, List.mergeSort_perm pool _, ?_, ?_⟩
  · have hs := @List.sorted_mergeSort _
      (fun a b =>
        decide (sortKey hybrid keyword_weight (queryWords query) a ≤
          sortKey hybrid keyword_weight (queryWords query) b))
      (sortKeyLe_trans hybrid keyword_weight (queryWords query))
      (sortKeyLe_total hybrid keyword_weight (queryWords query)) pool
    exact hs.imp (fun h => by simpa using h)
  · intro a b hsub hkey
    exact List.pair_sublist_mergeSort
      (sortKeyLe_trans hybrid keyword_weight (queryWords query))
      (sortKeyLe_total hybrid keyword_weight (queryWords query))
      (by simp [hkey]) hsub

/-- Witness for C8 at a concrete tie: two candidates with equal distance
keep their store return order in the ranking. -/
theorem retrieval_ranking_deterministic_witness :
    List.Sublist [hitTieA, hitTieB] (sortHits false 0 (queryWords "q") [hitTieA, hitTieB]) :=
  (retrieval_ranking_deterministic [hitTieA, hitTieB] "q" 2 false 0 false 0).2.2.2
    hitTieA hitTieB (by decide) (by decide)

/-! ## C4: MMR diversity -/

/-- A fold of `max` over values all below `m`, with a below-`m` seed,
reaches exactly `m` when `m` is appended. -/
theorem foldl_max_concat_of_lt (m : ℚ) :
    ∀ (l : List ℚ) (init : ℚ), init < m → (∀ x ∈ l, x < m) →
      (l ++ [m]).foldl max init = m := by
  intro l
  induction l with
  | nil =>
    intro init hinit _
    simp [max_eq_right (le_of_lt hinit)]
  | cons x r ih =>
    intro init hinit hall
    have hx : x < m := hall x (by simp)
    simp only [List.cons_append, List.foldl_cons]
    exact ih (max init x) (max_lt hinit hx) (fun y hy => hall y (by simp [hy]))

/-- `maxList` of a list of values all strictly below an appended last
element is that last element. -/
theorem maxList_concat_of_lt (l : List ℚ) (m : ℚ) (h : ∀ x ∈ l, x < m) :
    maxList (l ++ [m]) = m := by
  cases l with
  | nil => simp [maxList]
  | cons x r =>
    simp only [List.cons_append, maxList]
    exact foldl_max_concat_of_lt m r x (h x (by simp))
      (fun y hy => h y (by simp [hy]))

/-- `findIdx` for the last element when no earlier element matches. -/
theorem findIdx_concat_of_ne (l : List ℚ) (m : ℚ) (h : ∀ x ∈ l, x ≠ m) :
    (l ++ [m]).findIdx (fun x => decide (x = m)) = l.length := by
  induction l with
  | nil => simp [List.findIdx_cons]
  | cons x r ih =>
    have hx : (fun x => decide (x = m)) x = false := by
      simpa using h x (by simp)
    simp only [List.cons_append, List.findIdx_cons, hx, cond_false, List.length_cons]
    rw [ih (fun y hy => h y (by simp [hy]))]

/-- The first index of the maximum, when every earlier score is strictly
below the last one, is the last position. -/
theorem idxOfMax_concat_of_lt (l : List ℚ) (m : ℚ) (h : ∀ x ∈ l, x < m) :
    idxOfMax (l ++ [m]) = l.length := by
  unfold idxOfMax
  rw [maxList_concat_of_lt l m h]
  exact findIdx_concat_of_ne l m (fun x hx => ne_of_lt (h x hx))

/-- Erasing the last position of `l ++ [m]` gives back `l`. -/
theorem eraseIdx_concat_length {α : Type} : ∀ (l : List α) (m : α),
    (l ++ [m]).eraseIdx l.length = l := by
  intro l
  induction l with
  | nil => intro m; rfl
  | cons x r ih => intro m; simp only [List.cons_append, List.length_cons,
      List.eraseIdx_cons_succ, ih]

/-- The MMR loop only ever appends to the selection: the incoming selection
is a prefix of the result. -/
theorem mmrLoop_isPrefix (mmr_lambda : ℚ) (top_k : Nat) :
    ∀ (fuel : Nat) (selected candidates : List Hit),
      List.IsPrefix selected (mmrLoop mmr_lambda top_k fuel selected candidates) := by
  intro fuel
  induction fuel with
  | zero => intro selected candidates; exact List.prefix_refl _
  | succ fuel ih =>
    intro selected candidates
    rw [mmrLoop]
    by_cases hc : selected.length < top_k ∧ candidates ≠ []
    · rw [if_pos hc]
      dsimp only
      cases hget : candidates.get? (idxOfMax (candidates.map (mmrScore mmr_lambda selected))) with
      | none => exact List.prefix_refl _
      | some c =>
        exact (show List.IsPrefix selected (selected ++ [c]) from ⟨[c], rfl⟩).trans
          (ih (selected ++ [c]) (candidates.eraseIdx _))
    · rw [if_neg hc]

/-- Unfolding one MMR iteration when the strictly best-scoring candidate is
the last one: it is selected and removed. -/
theorem mmrLoop_step_last (mmr_lambda : ℚ) (top_k fuel : Nat)
    (selected cands : List Hit) (c : Hit)
    (hsel : selected.length < top_k)
    (hmax : ∀ x ∈ cands.map (mmrScore mmr_lambda selected),
      x < mmrScore mmr_lambda selected c) :
    mmrLoop mmr_lambda top_k (fuel + 1) selected (cands ++ [c]) =
      mmrLoop mmr_lambda top_k fuel (selected ++ [c]) cands := by
  rw [mmrLoop]
  rw [if_pos ⟨hsel, by simp⟩]
  dsimp only
  have hidx : idxOfMax ((cands ++ [c]).map (mmrScore mmr_lambda selected)) =
      cands.length := by
    rw [List.map_append, List.map_singleton]
    have := idxOfMax_concat_of_lt (cands.map (mmrScore mmr_lambda selected))
      (mmrScore mmr_lambda selected c) hmax
    simpa using this
  rw [hidx]
  rw [show (cands ++ [c]).get? cands.length = some c from by
    rw [List.get?_eq_getElem?]; exact List.getElem?_concat_length cands c]
  rw [eraseIdx_concat_length]

/-- The `get?` of a prefix agrees with the `get?` of the longer list on
indices inside the prefix. -/
theorem IsPrefix.get?_eq_of_lt {α : Type} {l₁ l₂ : List α}
    (h : List.IsPrefix l₁ l₂) {n : Nat} (hn : n < l₁.length) :
    l₂.get? n = l₁.get? n := by
  obtain ⟨t, rfl⟩ := h
  simp only [List.get?_eq_getElem?]
  exact List.getElem?_append_left hn

/-- **C4 (amended).** For `mmr_lambda < 1/2`, on a sorted pool consisting of
near-duplicate high-relevance candidates (all at distance `d`) followed by
one diverse lower-relevance candidate (distance `d' > d`), the MMR selection
loop picks the diverse candidate second — before exhausting the
near-duplicates.  (For `1/2 ≤ mmr_lambda < 1` this fails; see the
counterexample.) -/
theorem mmr_selects_diverse_second (mmr_lambda d d' : ℚ) (h0 div : Hit)
    (dups : List Hit) (top_k : Nat)
    (hlam : mmr_lambda < 1/2)
    (hd0 : h0.distance = d) (hdups : ∀ h ∈ dups, h.distance = d)
    (hdiv : div.distance = d') (hlt : d < d') (htop : 2 ≤ top_k) :
    (mmrSelect mmr_lambda top_k ((h0 :: dups) ++ [div])).get? 1 = some div := by
  have hstep : mmrSelect mmr_lambda top_k ((h0 :: dups) ++ [div]) =
      mmrLoop mmr_lambda top_k ((dups ++ [div]).length) [h0] (dups ++ [div]) := rfl
  rw [hstep]
  have hlen : (dups ++ [div]).length = dups.length + 1 := by simp
  rw [hlen]
  have hmax : ∀ x ∈ dups.map (mmrScore mmr_lambda [h0]),
      x < mmrScore mmr_lambda [h0] div := by
    intro x hx
    obtain ⟨h, hh, rfl⟩ := List.mem_map.mp hx
    have hhd : h.distance = d := hdups h hh
    unfold mmrScore maxSimToSelected maxList
    simp only [List.map_cons, List.map_nil, List.foldl_nil]
    rw [hhd, hdiv, hd0]
    have habs1 : |d - d| = 0 := by simp
    have habs2 : |d' - d| = d' - d := abs_of_pos (by linarith)
    rw [habs1, habs2]
    nlinarith [mul_pos (sub_pos.mpr hlt) (show (0:ℚ) < 1 - 2 * mmr_lambda by linarith)]
  rw [mmrLoop_step_last mmr_lambda top_k dups.length [h0] dups div
    (by simpa using htop) hmax]
  have hpre := mmrLoop_isPrefix mmr_lambda top_k dups.length ([h0] ++ [div]) dups
  rw [IsPrefix.get?_eq_of_lt hpre (by simp)]
  rfl

/-- Witness for C4 (amended) at a concrete instance:
`mmr_lambda = 1/4 < 1/2`, three near-duplicates at distance `0.1` and one
diverse candidate at `0.5` — the diverse candidate is selected second. -/
theorem mmr_selects_diverse_second_witness :
    (mmrSelect (mkRat 1 4) 3
      ((⟨"d1", "", mkRat 1 10⟩ :: [⟨"d2", "", mkRat 1 10⟩, ⟨"d3", "", mkRat 1 10⟩]) ++
        [⟨"dv", "", mkRat 1 2⟩])).get? 1 = some ⟨"dv", "", mkRat 1 2⟩ :=
  mmr_selects_diverse_second (mkRat 1 4) (mkRat 1 10) (mkRat 1 2)
    ⟨"d1", "", mkRat 1 10⟩ ⟨"dv", "", mkRat 1 2⟩
    [⟨"d2", "", mkRat 1 10⟩, ⟨"d3", "", mkRat 1 10⟩] 3
    (by norm_num [mkRat, Rat.normalize]) rfl (by decide) rfl (by decide) (by decide)

/-- **C4 (counterexample).** The claim as stated fails: with
`mmr_lambda = 3/4 < 1` on a pool of three near-duplicate high-relevance
candidates (distance `0.1`) plus one diverse lower-relevance candidate
(distance `0.5`), MMR selection exhausts the near-duplicates and never
selects the diverse candidate: near-duplicates beat the diverse candidate at
every round because `1 - mmr_lambda` is too small a diversity weight. -/
theorem mmr_diverse_counterexample :
    mkRat 3 4 < 1 ∧
    mmrSelect (mkRat 3 4) 3 dupPool =
      [⟨"d1", "", mkRat 1 10⟩, ⟨"d2", "", mkRat 1 10⟩, ⟨"d3", "", mkRat 1 10⟩] ∧
    (mmrSelect (mkRat 3 4) 3 dupPool).all (fun h => h.id ≠ "dv") := by
  refine ⟨by decide, by decide, by decide⟩

/-! ## C3: the chunk token bound -/

/-- `' '.join` of a list extended on the right. -/
theorem joinSp_concat : ∀ (l : List String) (x : String), l ≠ [] →
    joinSp (l ++ [x]) = joinSp l ++ " " ++ x
  | [], _, h => absurd rfl h
  | [_], _, _ => rfl
  | s :: t :: r, x, _ => by
    have ih := joinSp_concat (t :: r) x (by simp)
    show s ++ " " ++ joinSp ((t :: r) ++ [x]) = (s ++ " " ++ joinSp (t :: r)) ++ " " ++ x
    rw [ih]
    simp [String.append_assoc]

/-- Loop invariant for `chunkLoop` with `overlap = 0` and a tokenizer that
is additive over space-joins: every emitted chunk either fits the token
budget or is a single stripped sentence of the reference list `S`. -/
theorem chunkLoop_bound {T : Type} (encode : String → List T) (decode : List T → String)
    (max_tokens : Nat) (S : List String)
    (hadd : ∀ a b : String,
      (encode (a ++ " " ++ b)).length = (encode a).length + (encode b).length) :
    ∀ (sents : List String), ∀ (cc : List String) (ct : Nat),
      (∀ s ∈ sents, s ∈ S) →
      (cc = [] → ct = 0) →
      (cc ≠ [] → ct = (encode (joinSp cc)).length) →
      (cc ≠ [] → ct ≤ max_tokens ∨ ∃ s ∈ S, cc = [pyStrip s]) →
      ∀ chunk ∈ chunkLoop encode decode max_tokens 0 sents cc ct,
        (encode chunk).length ≤ max_tokens ∨ ∃ s ∈ S, chunk = pyStrip s := by
  intro sents
  induction sents with
  | nil =>
    intro cc ct _ _ h3 h4 chunk hchunk
    rw [chunkLoop] at hchunk
    cases cc with
    | nil => simp at hchunk
    | cons y ys =>
      simp only [List.isEmpty_cons, if_false, Bool.false_eq_true, List.mem_singleton]
        at hchunk
      subst hchunk
      rcases h4 (by simp) with hle | ⟨s, hs, hcc⟩
      · exact Or.inl (by rw [← h3 (by simp)]; exact hle)
      · refine Or.inr ⟨s, hs, ?_⟩
        rw [hcc]
        rfl
  | cons s rest ih =>
    intro cc ct hS h2 h3 h4 chunk hchunk
    rw [chunkLoop] at hchunk
    dsimp only at hchunk
    by_cases hse : pyStrip s = ""
    · rw [if_pos hse] at hchunk
      exact ih cc ct (fun x hx => hS x (by simp [hx])) h2 h3 h4 chunk hchunk
    · rw [if_neg hse] at hchunk
      by_cases hover : ct + (encode (pyStrip s)).length > max_tokens
      · rw [if_pos hover] at hchunk
        cases cc with
        | nil =>
          simp only [List.isEmpty_nil, if_true, List.mem_cons] at hchunk
          rcases hchunk with hchunk | hchunk
          · exact Or.inr ⟨s, hS s (by simp), hchunk⟩
          · exact ih [] 0 (fun x hx => hS x (by simp [hx])) (fun _ => rfl)
              (fun h => absurd rfl h) (fun h => absurd rfl h) chunk hchunk
        | cons y ys =>
          simp only [List.isEmpty_cons, Bool.false_eq_true, if_false,
            Nat.lt_irrefl, decide_False, Bool.false_and, List.mem_cons] at hchunk
          rcases hchunk with hchunk | hchunk
          · subst hchunk
            rcases h4 (by simp) with hle | ⟨s', hs', hcc⟩
            · exact Or.inl (by rw [← h3 (by simp)]; exact hle)
            · refine Or.inr ⟨s', hs', ?_⟩
              rw [hcc]
              rfl
          · refine ih [pyStrip s] (encode (pyStrip s)).length
              (fun x hx => hS x (by simp [hx])) (by simp)
              (fun _ => rfl) (fun _ => Or.inr ⟨s, hS s (by simp), rfl⟩) chunk hchunk
      · rw [if_neg hover] at hchunk
        refine ih (cc ++ [pyStrip s]) (ct + (encode (pyStrip s)).length)
          (fun x hx => hS x (by simp [hx])) (by simp) ?_ ?_ chunk hchunk
        · intro _
          cases cc with
          | nil => rw [h2 rfl]; simp [joinSp]
          | cons y ys =>
            rw [joinSp_concat (y :: ys) (pyStrip s) (by simp), hadd,
              ← h3 (by simp)]
        · intro _
          exact Or.inl (by omega)

/-- **C3 (amended).** With `overlap = 0` and a tokenizer additive over
space-joins, every chunk emitted by `smart_chunk_text` has token count at
most `max_tokens`, except chunks that are a single (stripped) sentence whose
own token count already exceeds the budget.  (With `overlap > 0` the claim
fails: the carried-over overlap seed can push a chunk past `max_tokens`; see
the counterexample.) -/
theorem chunk_token_bound_no_overlap {T : Type} (encode : String → List T)
    (decode : List T → String) (sentSplit : String → List String)
    (text : String) (max_tokens : Nat)
    (hadd : ∀ a b : String,
      (encode (a ++ " " ++ b)).length = (encode a).length + (encode b).length) :
    ∀ chunk ∈ smart_chunk_text encode decode sentSplit text max_tokens 0,
      (encode chunk).length ≤ max_tokens ∨
        ∃ s ∈ sentSplit (clean_text text), chunk = pyStrip s := by
  intro chunk hchunk
  exact chunkLoop_bound encode decode max_tokens (sentSplit (clean_text text)) hadd
    (sentSplit (clean_text text)) [] 0 (fun _ hs => hs) (fun _ => rfl)
    (fun h => absurd rfl h) (fun h => absurd rfl h) chunk hchunk

/-- The `'a'`-counting tokenizer is additive over space-joins. -/
theorem countAEncode_additive (a b : String) :
    (countAEncode (a ++ " " ++ b)).length =
      (countAEncode a).length + (countAEncode b).length := by
  simp [countAEncode, String.toList, List.filter_append]

/-- Witness for C3 (amended) at a concrete instance: sentences
`["aa", "aaa"]` with budget `2` produce the over-long single-sentence chunk
`"aaa"`, which falls under the permitted exception. -/
theorem chunk_token_bound_no_overlap_witness :
    (countAEncode "aaa").length ≤ 2 ∨
      ∃ s ∈ aSentSplit (clean_text "x"), "aaa" = pyStrip s :=
  chunk_token_bound_no_overlap countAEncode (fun l => String.mk l) aSentSplit "x" 2
    countAEncode_additive "aaa" (by decide)

/-- **C3 (counterexample).** With `overlap = 2` and `max_tokens = 3` (a
whitespace tokenizer), `smart_chunk_text` emits the chunk `"b c. d e f."`:
its token count is `5 > 3`, yet it is not a single sentence of the input —
it is an overlap seed (`"b c."`) glued to the sentence `"d e f."`.  This
refutes the claim that a single over-long sentence is the only permitted
overflow. -/
theorem chunk_token_bound_counterexample :
    "b c. d e f." ∈ smart_chunk_text pySplit joinSp exSentSplit "a b c. d e f. g" 3 2 ∧
    (pySplit "b c. d e f.").length = 5 ∧
    ¬ ∃ s ∈ exSentSplit (clean_text "a b c. d e f. g"), "b c. d e f." = pyStrip s := by
  refine ⟨by decide, by decide, by decide⟩

/-! ## C7: summary-cache behavior -/

/-- Distinct prompt seeds give distinct cache keys for the same chunk and
model (the concatenation differs in its tail). -/
theorem cacheKey_ne_of_seed_ne (chunk model seed seed' : String) (h : seed' ≠ seed) :
    cacheKey chunk model seed' ≠ cacheKey chunk model seed := by
  intro hcontra
  apply h
  unfold cacheKey at hcontra
  have hdata := congrArg String.data hcontra
  simp only [String.data_append] at hdata
  rw [List.append_assoc, List.append_assoc] at hdata
  have := List.append_cancel_left (List.append_cancel_left hdata)
  exact String.ext this

/-- Writing a summary under a key absent from the cache appends it. -/
theorem cache_summary_fresh (store : Cache) (chunk summary model seed : String)
    (h : load_cached_summary store chunk model seed = none) :
    cache_summary store chunk summary model seed =
      store ++ [(cacheKey chunk model seed, summary)] := by
  unfold load_cached_summary at h
  rw [Option.map_eq_none'] at h
  rw [List.find?_eq_none] at h
  unfold cache_summary
  rw [if_neg]
  simp only [List.any_eq_true, not_exists, not_and]
  intro e he
  simpa using h e he

/-- Looking up a key in a cache extended by exactly that key finds the newly
stored summary. -/
theorem load_append_self (store : Cache) (chunk summary model seed : String)
    (h : load_cached_summary store chunk model seed = none) :
    load_cached_summary (store ++ [(cacheKey chunk model seed, summary)])
      chunk model seed = some summary := by
  unfold load_cached_summary at h ⊢
  rw [Option.map_eq_none'] at h
  rw [List.find?_append, h]
  simp

/-- Looking up a key in a cache extended by a different key is unchanged. -/
theorem load_append_other (store : Cache) (k : String) (v : String)
    (chunk model seed : String) (h : k ≠ cacheKey chunk model seed) :
    load_cached_summary (store ++ [(k, v)]) chunk model seed =
      load_cached_summary store chunk model seed := by
  unfold load_cached_summary
  rw [List.find?_append]
  cases hfind : store.find? (fun e => decide (e.1 = cacheKey chunk model seed)) with
  | some e => simp
  | none => simp [h]

/-- **C7 (amended).** Provided the computed summary is non-empty (Python
truthiness treats an empty cached summary as a miss — see the
counterexample), summarizing the same `(chunk, model, prompt)` triple twice
with caching enabled invokes the compute function exactly once: the second
call returns the stored value with no invocation.  Changing the prompt seed
changes the cache key (a hash of the concatenation of chunk text, model and
prompt), so a second compute invocation occurs. -/
theorem summary_cache_correct (computeFn : String → String)
    (model seed seed' chunk : String) (store : Cache)
    (h1 : load_cached_summary store chunk model seed = none)
    (h2 : load_cached_summary store chunk model seed' = none)
    (hne : computeFn (formatPrompt seed chunk) ≠ "")
    (hseed : seed' ≠ seed) :
    (summarizeChunkStep computeFn model seed true store chunk).2.2 = 1 ∧
    (summarizeChunkStep computeFn model seed true
        (summarizeChunkStep computeFn model seed true store chunk).2.1 chunk).2.2 = 0 ∧
    (summarizeChunkStep computeFn model seed true
        (summarizeChunkStep computeFn model seed true store chunk).2.1 chunk).1 =
      (summarizeChunkStep computeFn model seed true store chunk).1 ∧
    (summarizeChunkStep computeFn model seed' true
        (summarizeChunkStep computeFn model seed true store chunk).2.1 chunk).2.2 = 1 := by
  set V := computeFn (formatPrompt seed chunk) with hv
  have hstep1 : summarizeChunkStep computeFn model seed true store chunk =
      (V, store ++ [(cacheKey chunk model seed, V)], 1) := by
    unfold summarizeChunkStep
    simp only [if_true, h1, truthyOpt, Bool.false_eq_true, if_false]
    rw [cache_summary_fresh store chunk V model seed h1]
  have hload2 : load_cached_summary (store ++ [(cacheKey chunk model seed, V)])
      chunk model seed = some V := load_append_self store chunk V model seed h1
  have hstep2 : summarizeChunkStep computeFn model seed true
      (store ++ [(cacheKey chunk model seed, V)]) chunk =
      (V, store ++ [(cacheKey chunk model seed, V)], 0) := by
    unfold summarizeChunkStep
    simp only [if_true, hload2, truthyOpt]
    simp [hne]
  have hload3 : load_cached_summary (store ++ [(cacheKey chunk model seed, V)])
      chunk model seed' = none := by
    rw [load_append_other store _ _ chunk model seed'
      (cacheKey_ne_of_seed_ne chunk model seed' seed hseed.symm)]
    exact h2
  have hstep3 : (summarizeChunkStep computeFn model seed' true
      (store ++ [(cacheKey chunk model seed, V)]) chunk).2.2 = 1 := by
    unfold summarizeChunkStep
    simp only [if_true, hload3, truthyOpt, Bool.false_eq_true, if_false]
  refine ⟨by rw [hstep1], ?_, ?_, ?_⟩
  · rw [hstep1]
    show (summarizeChunkStep computeFn model seed true
      (store ++ [(cacheKey chunk model seed, V)]) chunk).2.2 = 0
    rw [hstep2]
  · rw [hstep1]
    show (summarizeChunkStep computeFn model seed true
      (store ++ [(cacheKey chunk model seed, V)]) chunk).1 = V
    rw [hstep2]
  · rw [hstep1]
    show (summarizeChunkStep computeFn model seed' true
      (store ++ [(cacheKey chunk model seed, V)]) chunk).2.2 = 1
    exact hstep3

/-- Witness for C7 (amended) at a concrete instance: chunk `x`, model `m`,
seeds `p` and `q`, a compute function returning `S`, starting from the empty
cache. -/
theorem summary_cache_correct_witness :
    (summarizeChunkStep (fun _ => "S") "m" "p" true [] "x").2.2 = 1 ∧
    (summarizeChunkStep (fun _ => "S") "m" "p" true
        (summarizeChunkStep (fun _ => "S") "m" "p" true [] "x").2.1 "x").2.2 = 0 ∧
    (summarizeChunkStep (fun _ => "S") "m" "p" true
        (summarizeChunkStep (fun _ => "S") "m" "p" true [] "x").2.1 "x").1 =
      (summarizeChunkStep (fun _ => "S") "m" "p" true [] "x").1 ∧
    (summarizeChunkStep (fun _ => "S") "m" "q" true
        (summarizeChunkStep (fun _ => "S") "m" "p" true [] "x").2.1 "x").2.2 = 1 :=
  summary_cache_correct (fun _ => "S") "m" "p" "q" "x" []
    (by decide) (by decide) (by decide) (by decide)

/-- **C7 (counterexample).** The claim as stated fails when the computed
summary is the empty string: `if cached:` treats the stored empty summary as
a cache miss, so the second call on the identical `(chunk, model, prompt)`
triple invokes the compute function again — twice in total, not exactly
once. -/
theorem summary_cache_counterexample :
    (summarizeChunkStep (fun _ => "") "m" "p" true [] "x").2.2 = 1 ∧
    (summarizeChunkStep (fun _ => "") "m" "p" true
        (summarizeChunkStep (fun _ => "") "m" "p" true [] "x").2.1 "x").2.2 = 1 := by
  refine ⟨by decide, by decide⟩

/-! ## C9: whitespace normalization in `clean_text` -/

/-- `collapseSp` never changes the first character. -/
theorem collapseSp_head? (l : List Char) : (collapseSp l).head? = l.head? := by
  match l with
  | [] => rfl
  | [c] => rfl
  | a :: b :: rest =>
    rw [collapseSp]
    by_cases h : a = ' ' ∧ b = ' '
    · rw [if_pos h]; simp [h.1]
    · rw [if_neg h]; rfl

/-- A three-space run in a tail is a three-space run of the whole list. -/
theorem hasRun3_tail (x : Char) (xs : List Char)
    (h : hasRun3 (x :: xs) = false) : hasRun3 xs = false := by
  match xs with
  | [] => rfl
  | [b] => rfl
  | b :: c :: r =>
    rw [hasRun3] at h
    exact (Bool.or_eq_false_iff.mp h).2

/-- `hasRun2 (a :: l)` is false exactly when `a` does not start a two-space
run and `l` has none. -/
theorem hasRun2_cons_false (a : Char) (l : List Char) :
    hasRun2 (a :: l) = false ↔
      ¬(a = ' ' ∧ l.head? = some ' ') ∧ hasRun2 l = false := by
  match l with
  | [] => simp [hasRun2]
  | b :: r =>
    rw [hasRun2]
    simp only [Bool.or_eq_false_iff]
    constructor
    · rintro ⟨h1, h2⟩
      refine ⟨?_, h2⟩
      rintro ⟨ha, hb⟩
      simp only [List.head?_cons, Option.some.injEq] at hb
      simp [ha, hb] at h1
    · rintro ⟨h1, h2⟩
      refine ⟨?_, h2⟩
      by_cases ha : a = ' '
      · by_cases hb : b = ' '
        · exact absurd ⟨ha, by simp [hb]⟩ h1
        · simp [hb]
      · simp [ha]

/-- A run-free concatenation has run-free parts. -/
theorem hasRun2_append_false (l1 l2 : List Char)
    (h : hasRun2 (l1 ++ l2) = false) :
    hasRun2 l1 = false ∧ hasRun2 l2 = false := by
  induction l1 with
  | nil => exact ⟨rfl, h⟩
  | cons a l1' ih =>
    rw [List.cons_append, hasRun2_cons_false] at h
    obtain ⟨hhead, htail⟩ := h
    obtain ⟨h1', h2⟩ := ih htail
    refine ⟨(hasRun2_cons_false a l1').mpr ⟨?_, h1'⟩, h2⟩
    rintro ⟨ha, hb⟩
    apply hhead
    refine ⟨ha, ?_⟩
    cases l1' with
    | nil => simp at hb
    | cons c r => simpa using hb

/-- One `replace('  ', ' ')` pass leaves no two-space run provided the input
has no three-space run. -/
theorem collapseSp_no_run2 : ∀ (l : List Char), hasRun3 l = false →
    hasRun2 (collapseSp l) = false
  | [], _ => rfl
  | [c], _ => rfl
  | a :: b :: rest, h => by
    rw [collapseSp]
    by_cases hab : a = ' ' ∧ b = ' '
    · rw [if_pos hab]
      have hrest3 : hasRun3 rest = false :=
        hasRun3_tail b rest (hasRun3_tail a (b :: rest) h)
      rw [hasRun2_cons_false]
      refine ⟨?_, collapseSp_no_run2 rest hrest3⟩
      rintro ⟨-, hhead⟩
      rw [collapseSp_head? rest] at hhead
      cases rest with
      | nil => simp at hhead
      | cons c r =>
        simp only [List.head?_cons, Option.some.injEq] at hhead
        rw [hasRun3] at h
        simp [hab.1, hab.2, hhead] at h
    · rw [if_neg hab]
      have htail3 : hasRun3 (b :: rest) = false := hasRun3_tail a (b :: rest) h
      rw [hasRun2_cons_false]
      refine ⟨?_, collapseSp_no_run2 (b :: rest) htail3⟩
      rintro ⟨ha, hhead⟩
      rw [collapseSp_head? (b :: rest)] at hhead
      simp only [List.head?_cons, Option.some.injEq] at hhead
      exact hab ⟨ha, hhead⟩

/-- The strip step of `clean_text` keeps a run-free list run-free (the
stripped list is a prefix of a suffix of the input). -/
theorem pyStrip_no_run2 (m : List Char)
    (h : hasRun2 m = false) :
    hasRun2 (((m.dropWhile Char.isWhitespace).reverse.dropWhile
      Char.isWhitespace).reverse) = false := by
  set A := m.dropWhile Char.isWhitespace with hA
  have hAm : m.takeWhile Char.isWhitespace ++ A = m :=
    List.takeWhile_append_dropWhile _ _
  have hA2 : hasRun2 A = false := (hasRun2_append_false _ _ (by rw [hAm]; exact h)).2
  set B := A.reverse.dropWhile Char.isWhitespace with hB
  have hBA : A.reverse.takeWhile Char.isWhitespace ++ B = A.reverse :=
    List.takeWhile_append_dropWhile _ _
  have hArev : A = B.reverse ++ (A.reverse.takeWhile Char.isWhitespace).reverse := by
    have := congrArg List.reverse hBA
    simpa using this.symm
  exact (hasRun2_append_false _ _ (by rw [← hArev]; exact hA2)).1

/-- Membership in a `collapseSp` image comes from the input or is a space. -/
theorem mem_collapseSp : ∀ (l : List Char) (c : Char), c ∈ collapseSp l →
    c ∈ l ∨ c = ' '
  | [], c, h => by simp [collapseSp] at h
  | [a], c, h => by
    simp only [collapseSp, List.mem_singleton] at h
    exact Or.inl (by simp [h])
  | a :: b :: rest, c, h => by
    rw [collapseSp] at h
    by_cases hab : a = ' ' ∧ b = ' '
    · rw [if_pos hab] at h
      rcases List.mem_cons.mp h with hc | hc
      · exact Or.inr hc
      · rcases mem_collapseSp rest c hc with hc' | hc'
        · exact Or.inl (by simp [hc'])
        · exact Or.inr hc'
    · rw [if_neg hab] at h
      rcases List.mem_cons.mp h with hc | hc
      · exact Or.inl (by simp [hc])
      · rcases mem_collapseSp (b :: rest) c hc with hc' | hc'
        · exact Or.inl (by simpa using Or.inr hc')
        · exact Or.inr hc'

/-- **C9 (amended).** For every input text, `clean_text` yields a string
with no newline characters; and it has no run of two consecutive spaces
provided the input, after newlines are replaced by spaces, has no run of
three consecutive spaces.  (In general runs of spaces are only halved by the
single `replace('  ', ' ')` pass, not collapsed; see the counterexample.) -/
theorem clean_text_no_newline_and_spaces (text : String) :
    '\n' ∉ (clean_text text).toList ∧
    (hasRun3 (replaceNl text.toList) = false →
      hasRun2 (clean_text text).toList = false) := by
  have heq : (clean_text text).toList =
      (((collapseSp (replaceNl text.toList)).dropWhile Char.isWhitespace).reverse.dropWhile
        Char.isWhitespace).reverse := rfl
  constructor
  · rw [heq]
    intro hmem
    have h1 := List.mem_reverse.mp hmem
    have h1b := (List.dropWhile_sublist Char.isWhitespace).subset h1
    have h1c := List.mem_reverse.mp h1b
    have h2 : '\n' ∈ collapseSp (replaceNl text.toList) :=
      (List.dropWhile_sublist Char.isWhitespace).subset h1c
    rcases mem_collapseSp _ _ h2 with h3 | h3
    · obtain ⟨x, -, hx⟩ := List.mem_map.mp h3
      by_cases hx' : x = '\n' <;> simp [hx'] at hx
    · exact absurd h3 (by decide)
  · intro h3
    rw [heq]
    exact pyStrip_no_run2 _ (collapseSp_no_run2 _ h3)

/-- Witness for C9 (amended): `"a\nb"` has no three-space run after
newline replacement; the cleaned text has no newline and no double space. -/
theorem clean_text_no_newline_and_spaces_witness :
    '\n' ∉ (clean_text "a\nb").toList ∧
      hasRun2 (clean_text "a\nb").toList = false :=
  ⟨(clean_text_no_newline_and_spaces "a\nb").1,
   (clean_text_no_newline_and_spaces "a\nb").2 (by decide)⟩

/-- **C9 (counterexample).** The claim as stated fails: the single
`replace('  ', ' ')` pass only halves runs of spaces, so the three-space run
in `"a   b"` leaves the double space `"a  b"` in the normalized text. -/
theorem clean_text_counterexample :
    clean_text "a   b" = "a  b" ∧ hasRun2 (clean_text "a   b").toList = true := by
  refine ⟨by decide, by decide⟩

/-! ## C6: source aggregation -/

/-- The chunk-id update of `build_sources` changes no group key. -/
theorem upd_map_fst (gs : List ((String × Int) × SourceRef)) (k : String × Int)
    (cid : String) :
    ((gs.map (fun e =>
      if e.1 = k then (e.1, { e.2 with chunk_ids := e.2.chunk_ids ++ [cid] }) else e)).map
        Prod.fst) = gs.map Prod.fst := by
  rw [List.map_map]
  apply List.map_congr_left
  intro e _
  by_cases he : e.1 = k <;> simp [he]

/-- `addHitToGroups` preserves the invariant that each group record carries
its own key. -/
theorem addHit_key_invariant (gs : List ((String × Int) × SourceRef)) (hit : QHit)
    (h : ∀ e ∈ gs, (e.2.doc_name, e.2.page) = e.1) :
    ∀ e ∈ addHitToGroups gs hit, (e.2.doc_name, e.2.page) = e.1 := by
  intro e he
  unfold addHitToGroups at he
  dsimp only at he
  split at he
  · -- a contributing chunk id is appended to the key's group
    obtain ⟨e', he', rfl⟩ := List.mem_map.mp he
    have hinv : (e'.2.doc_name, e'.2.page) = e'.1 := by
      split at he'
      · exact h e' he'
      · rcases List.mem_append.mp he' with hmem | hmem
        · exact h e' hmem
        · simp only [List.mem_singleton] at hmem
          subst hmem
          rfl
    split
    · simpa using hinv
    · exact hinv
  · -- no contributing chunk id
    split at he
    · exact h e he
    · rcases List.mem_append.mp he with hmem | hmem
      · exact h e hmem
      · simp only [List.mem_singleton] at hmem
        subst hmem
        rfl

/-- `addHitToGroups` keeps the group keys duplicate-free. -/
theorem addHit_nodup (gs : List ((String × Int) × SourceRef)) (hit : QHit)
    (h : (gs.map Prod.fst).Nodup) :
    ((addHitToGroups gs hit).map Prod.fst).Nodup := by
  have hfresh : ∀ (key : String × Int) (g : SourceRef),
      ¬(gs.any (fun e => decide (e.1 = key)) = true) →
      ((gs ++ [(key, g)]).map Prod.fst).Nodup := by
    intro key g hany
    rw [List.map_append]
    simp only [List.map_cons, List.map_nil]
    rw [List.nodup_append]
    refine ⟨h, List.nodup_singleton _, ?_⟩
    intro x hx
    simp only [List.mem_singleton]
    intro hx'
    subst hx'
    apply hany
    rw [List.any_eq_true]
    obtain ⟨e, he, rfl⟩ := List.mem_map.mp hx
    exact ⟨e, he, by simp⟩
  unfold addHitToGroups
  dsimp only
  split
  · rw [upd_map_fst]
    split
    · exact h
    · next hany => exact hfresh _ _ hany
  · split
    · exact h
    · next hany => exact hfresh _ _ hany

/-- The fold of `build_sources` keeps the key invariant. -/
theorem foldl_addHit_key (hits : List QHit) :
    ∀ (gs : List ((String × Int) × SourceRef)),
      (∀ e ∈ gs, (e.2.doc_name, e.2.page) = e.1) →
      ∀ e ∈ hits.foldl addHitToGroups gs, (e.2.doc_name, e.2.page) = e.1 := by
  induction hits with
  | nil => intro gs h; exact h
  | cons hit rest ih =>
    intro gs h
    exact ih (addHitToGroups gs hit) (addHit_key_invariant gs hit h)

/-- The fold of `build_sources` keeps the keys duplicate-free. -/
theorem foldl_addHit_nodup (hits : List QHit) :
    ∀ (gs : List ((String × Int) × SourceRef)),
      (gs.map Prod.fst).Nodup →
      ((hits.foldl addHitToGroups gs).map Prod.fst).Nodup := by
  induction hits with
  | nil => intro gs h; exact h
  | cons hit rest ih =>
    intro gs h
    exact ih (addHitToGroups gs hit) (addHit_nodup gs hit h)

/-- The Boolean comparison used to order source references is transitive. -/
theorem srcLe_trans' : ∀ a b c : SourceRef,
    decide (srcLe a b) → decide (srcLe b c) → decide (srcLe a c) := by
  intro a b c hab hbc
  simp only [decide_eq_true_eq] at *
  unfold srcLe at *
  rcases hab with h1 | ⟨h1, h2⟩ <;> rcases hbc with h3 | ⟨h3, h4⟩
  · exact Or.inl (h1.trans h3)
  · exact Or.inl (by omega)
  · exact Or.inl (by omega)
  · exact Or.inr ⟨by omega, by omega⟩

/-- The Boolean comparison used to order source references is total. -/
theorem srcLe_total' : ∀ a b : SourceRef,
    (decide (srcLe a b) || decide (srcLe b a)) := by
  intro a b
  simp only [Bool.or_eq_true, decide_eq_true_eq]
  unfold srcLe
  omega

/-- **C6.** `build_sources` groups hits by `(doc_name, page)` — each emitted
reference has a distinct `(doc_name, page)` key — orders the groups by
ascending page with descending group size as tie-break, assigns the 1-based
`index` in that final order, and truncates to `max_refs`; on the concrete
hits `[(docA, p1), (docA, p1), (docB, p2)]` with `p1 < p2` it emits exactly
two groups, `(docA, p1)` first with both contributing chunk ids and the
first-seen hit's snippet. -/
theorem build_sources_spec :
    (∀ (hits : List QHit) (max_refs : Nat),
      (build_sources hits max_refs).length ≤ max_refs) ∧
    (∀ (hits : List QHit) (max_refs i : Nat) (g : SourceRef),
      (build_sources hits max_refs).get? i = some g → g.index = i + 1) ∧
    (∀ (hits : List QHit) (max_refs : Nat),
      List.Pairwise (fun a b => a.page < b.page ∨
        (a.page = b.page ∧ b.chunk_ids.length ≤ a.chunk_ids.length))
        (build_sources hits max_refs)) ∧
    (∀ (hits : List QHit) (max_refs : Nat),
      List.Pairwise (fun a b => ¬(a.doc_name = b.doc_name ∧ a.page = b.page))
        (build_sources hits max_refs)) ∧
    build_sources exQHits 5 =
      [{ doc_name := "docA", page := 1, chunk_ids := ["c1", "c2"], source := "sA",
         snippet := "t1", index := 1 },
       { doc_name := "docB", page := 2, chunk_ids := ["c3"], source := "docB - Page 2",
         snippet := "t3", index := 2 }] := by
  refine ⟨?_, ?_, ?_, ?_, by decide⟩
  · -- truncation to max_refs
    intro hits max_refs
    unfold build_sources
    dsimp only
    rw [List.length_map, List.enum_eq_enumFrom, List.enumFrom_length, List.length_take]
    exact min_le_left _ _
  · -- 1-based index in final order
    intro hits max_refs i g hg
    unfold build_sources at hg
    dsimp only at hg
    rw [List.get?_eq_getElem?, List.getElem?_map, List.enum_eq_enumFrom,
      List.getElem?_enumFrom] at hg
    cases hx : (List.take max_refs
        ((List.map Prod.snd (List.foldl addHitToGroups [] hits)).mergeSort
          (fun a b => decide (srcLe a b))))[i]? with
    | none => rw [hx] at hg; simp at hg
    | some x =>
      rw [hx] at hg
      simp only [Option.map_some', Option.some.injEq] at hg
      rw [← hg]
      simp
  · -- sorted by ascending page, then descending group size
    intro hits max_refs
    unfold build_sources
    dsimp only
    apply List.pairwise_map.mpr
    have hsorted := @List.sorted_mergeSort _
      (fun a b => decide (srcLe a b)) srcLe_trans' srcLe_total'
      ((hits.foldl addHitToGroups []).map Prod.snd)
    have hsorted' : List.Pairwise srcLe
        (((hits.foldl addHitToGroups []).map Prod.snd).mergeSort
          (fun a b => decide (srcLe a b))) :=
      hsorted.imp (fun h => by simpa using h)
    have htake := hsorted'.sublist (List.take_sublist max_refs _)
    rw [← List.enumFrom_map_snd 0 (List.take max_refs _)] at htake
    have henum := List.pairwise_map.mp htake
    rw [List.enum_eq_enumFrom]
    refine henum.imp ?_
    intro p q hpq
    dsimp only
    unfold srcLe at hpq
    rcases hpq with h1 | ⟨h1, h2⟩
    · exact Or.inl h1
    · exact Or.inr ⟨h1, by omega⟩
  · -- grouping: one reference per (doc_name, page)
    intro hits max_refs
    unfold build_sources
    dsimp only
    have hkey := foldl_addHit_key hits [] (by simp)
    have hnodup := foldl_addHit_nodup hits [] (by simp)
    -- the (doc_name, page) keys of the group records are exactly the map keys
    have hmapkeys : ((hits.foldl addHitToGroups []).map Prod.snd).map
        (fun g => (g.doc_name, g.page)) = (hits.foldl addHitToGroups []).map Prod.fst := by
      rw [List.map_map]
      apply List.map_congr_left
      intro e he
      exact hkey e he
    have hnodup2 : (((hits.foldl addHitToGroups []).map Prod.snd).map
        (fun g => (g.doc_name, g.page))).Nodup := by
      rw [hmapkeys]; exact hnodup
    have hperm : List.Perm
        ((((hits.foldl addHitToGroups []).map Prod.snd).mergeSort
          (fun a b => decide (srcLe a b))).map (fun g => (g.doc_name, g.page)))
        ((((hits.foldl addHitToGroups []).map Prod.snd)).map
          (fun g => (g.doc_name, g.page))) :=
      (List.mergeSort_perm _ _).map _
    have hnodup3 := hperm.nodup_iff.mpr hnodup2
    have hnodup4 : ((((hits.foldl addHitToGroups []).map Prod.snd).mergeSort
        (fun a b => decide (srcLe a b))).take max_refs |>.map
          (fun g => (g.doc_name, g.page))).Nodup :=
      hnodup3.sublist ((List.take_sublist max_refs _).map _)
    have hpair := List.pairwise_map.mp hnodup4
    rw [← List.enumFrom_map_snd 0 ((((hits.foldl addHitToGroups []).map Prod.snd).mergeSort
        (fun a b => decide (srcLe a b))).take max_refs)] at hpair
    have henum := List.pairwise_map.mp hpair
    apply List.pairwise_map.mpr
    rw [List.enum_eq_enumFrom]
    refine henum.imp ?_
    intro p q hpq hcontra
    dsimp only at hcontra
    exact hpq (Prod.ext hcontra.1 hcontra.2)

/-- Witness for C6 at the concrete example: the first emitted reference of
the three-hit example indeed carries index `1`. -/
theorem build_sources_spec_witness :
    ({ doc_name := "docA", page := 1, chunk_ids := ["c1", "c2"], source := "sA",
       snippet := "t1", index := 1 } : SourceRef).index = 0 + 1 :=
  build_sources_spec.2.1 exQHits 5 0
    { doc_name := "docA", page := 1, chunk_ids := ["c1", "c2"], source := "sA",
      snippet := "t1", index := 1 } (by decide)
